import Mathlib

/-!
Verification of the schema-analyzer program (`src/main.rs`).

The program samples a MongoDB collection, runs an aggregation pipeline that
extracts each sampled document's top-level (field, type) shape, unions the
key sets, completes each shape with `"missing"` entries, deduplicates the
completed shapes, groups the (field, type) pairs per field, and finally
merges the streamed result records into a Rust `HashMap<String, Vec<String>>`.

The embedding below models BSON values, the concrete aggregation pipeline
built in `main` (lines 32-159), and the Rust-side merge loop (lines 183-200),
including its `.unwrap()` panics and its overwrite-on-insert merge.
-/

namespace SchemaAnalyzer

/-- BSON value, as stored in the sampled documents.  Only the top level of a
document is inspected by the pipeline; nested arrays and objects are carried
opaquely.  The constructors cover the BSON kinds distinguished by the
`$type` aggregation operator used at line 49 of `main.rs`. -/
inductive BVal where
  | str (s : String)
  | i32 (n : ℤ)
  | i64 (n : ℤ)
  | dbl (q : ℚ)
  | boolean (b : Bool)
  | null
  | date (millis : ℤ)
  | binData (bytes : List ℕ)
  | objectId (hex : String)
  | arr (elems : List BVal)
  | obj (fields : List (String × BVal))
  | regex (pat : String)
  | timestamp (t : ℕ)
  | decimal (s : String)
  | javascript (code : String)
  | symbol (s : String)
  | undefinedVal
  | dbPointer (ref : String)
  | minKey
  | maxKey

/-- A BSON document: an ordered list of (field name, value) pairs. -/
abbrev BDoc := List (String × BVal)

/-- The MongoDB `$type` operator (line 49 of `main.rs`): the BSON type name
of a value, as one of the fixed type-name strings returned by the server. -/
def typeName : BVal → String
  | .str _ => "string"
  | .i32 _ => "int"
  | .i64 _ => "long"
  | .dbl _ => "double"
  | .boolean _ => "bool"
  | .null => "null"
  | .date _ => "date"
  | .binData _ => "binData"
  | .objectId _ => "objectId"
  | .arr _ => "array"
  | .obj _ => "object"
  | .regex _ => "regex"
  | .timestamp _ => "timestamp"
  | .decimal _ => "decimal"
  | .javascript _ => "javascript"
  | .symbol _ => "symbol"
  | .undefinedVal => "undefined"
  | .dbPointer _ => "dbPointer"
  | .minKey => "minKey"
  | .maxKey => "maxKey"

/-- The closed set of type-name strings the `$type` operator can return for
the value kinds modelled by `BVal`. -/
def bsonTypeNames : List String :=
  ["string", "int", "long", "double", "bool", "null", "date", "binData",
   "objectId", "array", "object", "regex", "timestamp", "decimal",
   "javascript", "symbol", "undefined", "dbPointer", "minKey", "maxKey"]

/-- From the spec (§3, TypeTag): the closed canonical tag set the spec
prescribes for the type extractor.  Used only to compare the source's
actual tags against the specified ones. -/
def canonicalTypeTags : List String :=
  ["string", "integer", "float", "boolean", "null", "date", "binary",
   "object-id", "array", "object", "missing", "other"]

/-- A document shape: the array of `\x7bk, v\x7d` pairs produced by the
`$project`/`$map`/`$type` stage (lines 38-54), i.e. (field name, type name)
pairs in document field order. -/
abbrev Shape := List (String × String)

/-- Stage `$project`/`$map` (lines 38-54): `$objectToArray` of the document
root mapped to `\x7bk: field.k, v: $type(field.v)\x7d`. -/
def extractShape (d : BDoc) : Shape :=
  d.map (fun p => (p.1, typeName p.2))

/-- The `k` components of a shape (the path `$schema.k` over the array). -/
def shapeKeys (s : Shape) : List String :=
  s.map Prod.fst

/-- One step of `$addToSet`: add an element to an accumulated set unless it
is already present (BSON equality; for embedded documents and arrays this
equality is order-sensitive). -/
def sAdd {α : Type} [DecidableEq α] (acc : List α) (x : α) : List α :=
  if x ∈ acc then acc else acc ++ [x]

/-- The `$addToSet` accumulator over a whole input sequence. -/
def addToSet {α : Type} [DecidableEq α] (xs : List α) : List α :=
  xs.foldl sAdd []

/-- The `$setUnion` operator (line 76): union of two arrays viewed as sets. -/
def setUnion (a b : List String) : List String :=
  addToSet (a ++ b)

/-- The `keys` accumulator of the first `$group` stage (lines 56-66):
`$addToSet` of each document's key array `$schema.k`. -/
def keyLists (sample : List BDoc) : List (List String) :=
  addToSet (sample.map (fun d => shapeKeys (extractShape d)))

/-- The `$reduce`/`$setUnion` stage (lines 68-82): fold the collected key
arrays into one global key set, starting from the empty array. -/
def globalKeys (sample : List BDoc) : List String :=
  (keyLists sample).foldl setUnion []

/-- The `$setDifference` operator (line 93): elements of the first array not
in the second, with duplicates removed. -/
def setDifference (a b : List String) : List String :=
  (addToSet a).filter (fun k => decide (k ∉ b))

/-- The shape-completion stage (lines 88-105): `$reduce` over
`$setDifference(keys, schema.k)` starting from the document's shape,
appending a `\x7bk, v: "missing"\x7d` pair for each absent key. -/
def completeShape (keys : List String) (s : Shape) : Shape :=
  (setDifference keys (shapeKeys s)).foldl (fun acc k => acc ++ [(k, "missing")]) s

/-- One step of `$arrayToObject` (line 115): entries are added in order; a
repeated key overwrites the value stored at its first position. -/
def a2oStep (acc : Shape) (p : String × String) : Shape :=
  if p.1 ∈ shapeKeys acc then
    acc.map (fun q => if q.1 = p.1 then (q.1, p.2) else q)
  else acc ++ [p]

/-- The `$arrayToObject` conversion of a shape (line 115) followed by the
`$objectToArray` conversion back (line 130), composed: on the `k`/`v` pair
list this is the identity when keys are distinct, and collapses repeated
keys otherwise. -/
def arrayToObject (s : Shape) : Shape :=
  s.foldl a2oStep []

/-- The distinct raw shapes: the `schema` accumulator of the first `$group`
stage (lines 56-66), `$addToSet` of each document's shape array. -/
def distinctShapes (sample : List BDoc) : List Shape :=
  addToSet (sample.map extractShape)

/-- The completed shapes after `$unwind` (line 84) and the missing-key fill
(lines 88-105), one per distinct raw shape. -/
def completedShapes (sample : List BDoc) : List Shape :=
  (distinctShapes sample).map (completeShape (globalKeys sample))

/-- The second `$group` stage (lines 106-120): deduplicate the completed
shapes via `$addToSet` of their `$arrayToObject` form. -/
def dedupShapes (sample : List BDoc) : List Shape :=
  addToSet ((completedShapes sample).map arrayToObject)

/-- The per-field `$group` stage (lines 139-146) applied to the unwound
(field, type) pairs: for each field, `$addToSet` of the type names seen. -/
def groupTypes (pairs : List (String × String)) : List (String × List String) :=
  (addToSet (pairs.map Prod.fst)).map
    (fun k => (k, addToSet ((pairs.filter (fun p => decide (p.1 = k))).map Prod.snd)))

/-- The final field-to-types table carried by the single output record of
the last `$group` stage (lines 148-158). -/
def schemaMap (sample : List BDoc) : List (String × List String) :=
  groupTypes (dedupShapes sample).flatten

/-- The stream of result records the aggregation produces: each `$group`
stage emits no document when its input is empty, so an empty sample — or a
sample whose shapes unwind to no (field, type) pairs — yields an empty
stream; otherwise the pipeline emits exactly one record holding the
field/types table. -/
def aggregationOutput (sample : List BDoc) : List (List (String × List String)) :=
  if sample.isEmpty then []
  else if (schemaMap sample).isEmpty then []
  else [schemaMap sample]

/-- A Rust panic: the process aborting via `.unwrap()` on a `None`/`Err`
value.  This is an uncontrolled abort, not a typed error value returned to
the caller. -/
inductive Panic where
  | unwrapFailed
  deriving DecidableEq

instance {ε α : Type} [DecidableEq ε] [DecidableEq α] : DecidableEq (Except ε α) := fun x y =>
  match x, y with
  | .ok a, .ok b =>
    if h : a = b then .isTrue (by rw [h]) else .isFalse (fun hc => h (Except.ok.inj hc))
  | .error a, .error b =>
    if h : a = b then .isTrue (by rw [h]) else .isFalse (fun hc => h (Except.error.inj hc))
  | .ok _, .error _ => .isFalse (fun hc => Except.noConfusion hc)
  | .error _, .ok _ => .isFalse (fun hc => Except.noConfusion hc)

/-- An error reported by the external data source (count query, aggregation
query, or cursor advance). -/
inductive DataSourceError where
  | queryFailed
  deriving DecidableEq

/-- `Bson::as_str` followed by `.unwrap()` (lines 188, 195). -/
def asStr : BVal → Except Panic String
  | .str s => .ok s
  | _ => .error .unwrapFailed

/-- `Bson::as_array` followed by `.unwrap()` (lines 185, 193). -/
def asArray : BVal → Except Panic (List BVal)
  | .arr xs => .ok xs
  | _ => .error .unwrapFailed

/-- `Bson::as_document` followed by `.unwrap()` (line 187). -/
def asDoc : BVal → Except Panic BDoc
  | .obj fs => .ok fs
  | _ => .error .unwrapFailed

/-- `Document::get(key)` followed by `.unwrap()` (lines 185, 188, 190). -/
def getField (d : BDoc) (k : String) : Except Panic BVal :=
  match d.find? (fun p => decide (p.1 = k)) with
  | some p => .ok p.2
  | none => .error .unwrapFailed

/-- The `types` extraction (lines 189-196): map each element of the `types`
array through `as_str().unwrap()`. -/
def mapStrs : List BVal → Except Panic (List String)
  | [] => .ok []
  | v :: rest => do
    let s ← asStr v
    let ss ← mapStrs rest
    pure (s :: ss)

/-- Parsing one entry of a record's `schema` array (lines 187-196):
`as_document`, `get("field").as_str`, `get("types").as_array`, each element
`as_str` — every failure is an `.unwrap()` panic. -/
def parseEntry (v : BVal) : Except Panic (String × List String) := do
  let e ← asDoc v
  let fv ← getField e "field"
  let f ← asStr fv
  let tv ← getField e "types"
  let tarr ← asArray tv
  let ts ← mapStrs tarr
  pure (f, ts)

/-- `HashMap::insert` (line 197): overwrite the value stored for the key if
present, otherwise add the binding.  The `HashMap` is modelled as an
association list with distinct keys; iteration order is not observed. -/
def hmInsert (m : List (String × List String)) (k : String) (v : List String) :
    List (String × List String) :=
  if k ∈ m.map Prod.fst then m.map (fun q => if q.1 = k then (k, v) else q)
  else m ++ [(k, v)]

/-- Lookup in the modelled `HashMap`. -/
def hmGet : List (String × List String) → String → Option (List String)
  | [], _ => none
  | p :: rest, k => if p.1 = k then some p.2 else hmGet rest k

/-- The `for_each` body over a record's `schema` entries (lines 186-198):
parse each entry and `insert` it into the accumulator map. -/
def processEntries (m : List (String × List String)) :
    List BVal → Except Panic (List (String × List String))
  | [] => .ok m
  | e :: rest => do
    let ft ← parseEntry e
    processEntries (hmInsert m ft.1 ft.2) rest

/-- Processing one record of the result stream (lines 183-198):
`doc.get("schema").unwrap().as_array().unwrap()`, then the entry loop. -/
def processRecord (m : List (String × List String)) (d : BDoc) :
    Except Panic (List (String × List String)) :=
  match getField d "schema" with
  | .error e => .error e
  | .ok v =>
    match asArray v with
    | .error e => .error e
    | .ok entries => processEntries m entries

/-- The `while let` merge loop (lines 183-200): fold all stream records into
the accumulator map, which starts empty (line 167). -/
def mergeStream (records : List BDoc) : Except Panic (List (String × List String)) :=
  records.foldlM processRecord []

/-- Encoding one field/types entry back as the BSON document produced by the
final `$group` stage (lines 148-158). -/
def encEntry (p : String × List String) : BVal :=
  .obj [("field", .str p.1), ("types", .arr (p.2.map .str))]

/-- Encoding a result record as the BSON document received from the cursor:
a single `schema` field holding the entry array. -/
def encodeRecord (r : List (String × List String)) : BDoc :=
  [("schema", .arr (r.map encEntry))]

/-- End-to-end run on a given sample: execute the aggregation pipeline and
feed its record stream through the Rust merge loop. -/
def finalSchema (sample : List BDoc) : Except Panic (List (String × List String)) :=
  mergeStream ((aggregationOutput sample).map encodeRecord)

/-- The whole of `main` as far as error flow is concerned: the count query
result is `.unwrap()`ed (lines 19-23), then the aggregation call is
`.unwrap()`ed (lines 173-177), then the stream records are merged with
`.unwrap()`s on every access (lines 183-200).  The sampled records stream is
an input, since it is produced by the external store. -/
def mainModel (countRes : Except DataSourceError ℕ)
    (aggRes : Except DataSourceError (List BDoc)) :
    Except Panic (List (String × List String)) :=
  match countRes with
  | .error _ => .error .unwrapFailed
  | .ok _ =>
    match aggRes with
    | .error _ => .error .unwrapFailed
    | .ok records => mergeStream records

/-- The configured default sample size (line 25). -/
def default_sample_size : ℕ := 10000

/-- Round-to-nearest of the square root of a natural number, half away from
zero: `(Nat.sqrt (4 n) + 1) / 2` equals `round (Real.sqrt n)` (proved
below). -/
def roundSqrt (n : ℕ) : ℕ :=
  (Nat.sqrt (4 * n) + 1) / 2

/-- The sample-size computation (lines 29-30):
`f64::max(default_sample_size, f64::sqrt(count)).round()`.  The `f64`
arithmetic is modelled as exact real arithmetic; since
`round 10000 = 10000`, rounding after the max equals taking the max of
`10000` and the rounded square root, which is the executable form used
here (the equality with `round (max 10000 (Real.sqrt n))` is proved in the
claim theorem). -/
def sample_size (n : ℕ) : ℕ :=
  max default_sample_size (roundSqrt n)

/-- A well-formed document: its top-level field names are distinct (a
`RawDocument` is a mapping, so BSON guarantees this). -/
def wellFormedDoc (d : BDoc) : Prop :=
  (d.map Prod.fst).Nodup

/-- A well-formed sample: every sampled document is well-formed. -/
def wellFormedSample (sample : List BDoc) : Prop :=
  ∀ d ∈ sample, wellFormedDoc d

instance (d : BDoc) : Decidable (wellFormedDoc d) := by
  unfold wellFormedDoc; infer_instance

instance (sample : List BDoc) : Decidable (wellFormedSample sample) := by
  unfold wellFormedSample; exact List.decidableBAll _ sample

/-- The three-document sample of the spec's end-to-end test (§8). -/
def c4sample : List BDoc :=
  [[("a", .i32 1), ("b", .str "x")], [("a", .i32 2)], [("c", .boolean true)]]

/-- A sample whose two documents carry the same fields and types but in
different field order. -/
def c9sample : List BDoc :=
  [[("a", .i32 1), ("b", .str "x")], [("b", .str "y"), ("a", .i32 2)]]

/-- First partial-result record of the split-field scenario: field `a` with
type set `int`. -/
def splitRec1 : BDoc :=
  [("schema", .arr [.obj [("field", .str "a"), ("types", .arr [.str "int"])]])]

/-- Second partial-result record of the split-field scenario: field `a` with
type set `string`. -/
def splitRec2 : BDoc :=
  [("schema", .arr [.obj [("field", .str "a"), ("types", .arr [.str "string"])]])]

/-! ### Lemmas about the `$addToSet` / `$setUnion` / `$setDifference` set model -/

theorem mem_sAdd {α : Type} [DecidableEq α] {acc : List α} {x y : α} :
    y ∈ sAdd acc x ↔ y ∈ acc ∨ y = x := by
  unfold sAdd
  by_cases h : x ∈ acc
  · simp only [if_pos h]
    constructor
    · exact Or.inl
    · rintro (hy | rfl) <;> [exact hy; exact h]
  · simp [if_neg h]

theorem nodup_sAdd {α : Type} [DecidableEq α] {acc : List α} (x : α) (h : acc.Nodup) :
    (sAdd acc x).Nodup := by
  unfold sAdd
  by_cases hx : x ∈ acc
  · simpa [if_pos hx]
  · simp [if_neg hx, List.nodup_append, h, hx]

theorem mem_foldl_sAdd {α : Type} [DecidableEq α] (xs : List α) :
    ∀ (acc : List α) (y : α), y ∈ xs.foldl sAdd acc ↔ y ∈ acc ∨ y ∈ xs := by
  induction xs with
  | nil => simp
  | cons x rest ih =>
    intro acc y
    rw [List.foldl_cons, ih, mem_sAdd]
    simp only [List.mem_cons]
    tauto

theorem nodup_foldl_sAdd {α : Type} [DecidableEq α] (xs : List α) :
    ∀ acc : List α, acc.Nodup → (xs.foldl sAdd acc).Nodup := by
  induction xs with
  | nil => exact fun _ h => h
  | cons x rest ih => exact fun acc h => ih _ (nodup_sAdd x h)

theorem mem_addToSet {α : Type} [DecidableEq α] {xs : List α} {y : α} :
    y ∈ addToSet xs ↔ y ∈ xs := by
  rw [addToSet, mem_foldl_sAdd]; simp

theorem nodup_addToSet {α : Type} [DecidableEq α] (xs : List α) :
    (addToSet xs).Nodup :=
  nodup_foldl_sAdd xs [] List.nodup_nil

theorem addToSet_append_of_mem {α : Type} [DecidableEq α] {xs : List α} {x : α}
    (h : x ∈ xs) : addToSet (xs ++ [x]) = addToSet xs := by
  rw [addToSet, List.foldl_append]
  show sAdd (addToSet xs) x = addToSet xs
  rw [sAdd, if_pos (mem_addToSet.mpr h)]

theorem foldl_sAdd_eq_append {α : Type} [DecidableEq α] (xs : List α) :
    ∀ acc : List α, (acc ++ xs).Nodup → xs.foldl sAdd acc = acc ++ xs := by
  induction xs with
  | nil => simp
  | cons x rest ih =>
    intro acc h
    have hx : x ∉ acc := by
      rw [List.nodup_append] at h
      exact fun hmem => h.2.2 hmem (List.mem_cons_self x rest)
    rw [List.foldl_cons, sAdd, if_neg hx, ih (acc ++ [x]) (by simpa using h)]
    simp

theorem addToSet_eq_self {α : Type} [DecidableEq α] {xs : List α} (h : xs.Nodup) :
    addToSet xs = xs := by
  rw [addToSet, foldl_sAdd_eq_append xs [] (by simpa using h)]
  simp

theorem mem_setUnion {a b : List String} {k : String} :
    k ∈ setUnion a b ↔ k ∈ a ∨ k ∈ b := by
  rw [setUnion, mem_addToSet, List.mem_append]

theorem nodup_setUnion (a b : List String) : (setUnion a b).Nodup :=
  nodup_addToSet _

theorem mem_setDifference {a b : List String} {k : String} :
    k ∈ setDifference a b ↔ k ∈ a ∧ k ∉ b := by
  rw [setDifference]
  simp [List.mem_filter, mem_addToSet]

theorem nodup_setDifference (a b : List String) : (setDifference a b).Nodup :=
  (nodup_addToSet a).filter _

/-! ### Lemmas about the global key set -/

theorem mem_foldl_setUnion (ls : List (List String)) :
    ∀ (acc : List String) (k : String),
      k ∈ ls.foldl setUnion acc ↔ k ∈ acc ∨ ∃ l ∈ ls, k ∈ l := by
  induction ls with
  | nil => simp
  | cons l rest ih =>
    intro acc k
    rw [List.foldl_cons, ih, mem_setUnion]
    simp only [List.mem_cons]
    constructor
    · rintro ((h | h) | ⟨l', hl', hk⟩)
      · exact Or.inl h
      · exact Or.inr ⟨l, Or.inl rfl, h⟩
      · exact Or.inr ⟨l', Or.inr hl', hk⟩
    · rintro (h | ⟨l', (rfl | hl'), hk⟩)
      · exact Or.inl (Or.inl h)
      · exact Or.inl (Or.inr hk)
      · exact Or.inr ⟨l', hl', hk⟩

theorem shapeKeys_extractShape (d : BDoc) :
    shapeKeys (extractShape d) = d.map Prod.fst := by
  rw [shapeKeys, extractShape, List.map_map]
  rfl

theorem mem_globalKeys {sample : List BDoc} {k : String} :
    k ∈ globalKeys sample ↔ ∃ d ∈ sample, k ∈ d.map Prod.fst := by
  rw [globalKeys, mem_foldl_setUnion]
  simp only [List.not_mem_nil, false_or, keyLists, mem_addToSet, List.mem_map]
  constructor
  · rintro ⟨l, ⟨d, hd, rfl⟩, hk⟩
    rw [shapeKeys_extractShape] at hk
    obtain ⟨a, ha, hae⟩ := List.mem_map.mp hk
    exact ⟨d, hd, a, ha, hae⟩
  · rintro ⟨d, hd, a, ha, hae⟩
    refine ⟨shapeKeys (extractShape d), ⟨d, hd, rfl⟩, ?_⟩
    rw [shapeKeys_extractShape]
    exact List.mem_map.mpr ⟨a, ha, hae⟩

theorem nodup_foldl_setUnion (ls : List (List String)) :
    ∀ acc : List String, acc.Nodup → (ls.foldl setUnion acc).Nodup := by
  induction ls with
  | nil => exact fun _ h => h
  | cons l rest ih => exact fun acc _ => ih _ (nodup_setUnion acc l)

theorem nodup_globalKeys (sample : List BDoc) : (globalKeys sample).Nodup :=
  nodup_foldl_setUnion _ [] List.nodup_nil

/-! ### Lemmas about type extraction and shape completion -/

theorem typeName_mem_bsonTypeNames (v : BVal) : typeName v ∈ bsonTypeNames := by
  cases v <;> simp [typeName, bsonTypeNames]

theorem typeName_ne_missing (v : BVal) : typeName v ≠ "missing" := by
  cases v <;> simp [typeName]

theorem missing_not_mem_extractShape (d : BDoc) (k : String) :
    (k, "missing") ∉ extractShape d := by
  rw [extractShape]
  intro h
  obtain ⟨p, _, hp⟩ := List.mem_map.mp h
  exact typeName_ne_missing p.2 (congrArg Prod.snd hp)

theorem foldl_append_missing (l : List String) :
    ∀ acc : Shape,
      l.foldl (fun acc k => acc ++ [(k, "missing")]) acc
        = acc ++ l.map (fun k => (k, "missing")) := by
  induction l with
  | nil => simp
  | cons x rest ih =>
    intro acc
    rw [List.foldl_cons, ih]
    simp

theorem completeShape_eq (keys : List String) (s : Shape) :
    completeShape keys s
      = s ++ (setDifference keys (shapeKeys s)).map (fun k => (k, "missing")) := by
  rw [completeShape, foldl_append_missing]

theorem mem_completeShape {keys : List String} {s : Shape} {k t : String} :
    (k, t) ∈ completeShape keys s
      ↔ (k, t) ∈ s ∨ (t = "missing" ∧ k ∈ keys ∧ k ∉ shapeKeys s) := by
  rw [completeShape_eq, List.mem_append]
  constructor
  · rintro (h | h)
    · exact Or.inl h
    · obtain ⟨k', hk', he⟩ := List.mem_map.mp h
      rw [Prod.mk.injEq] at he
      obtain ⟨rfl, rfl⟩ := he
      obtain ⟨h1, h2⟩ := mem_setDifference.mp hk'
      exact Or.inr ⟨rfl, h1, h2⟩
  · rintro (h | ⟨rfl, h1, h2⟩)
    · exact Or.inl h
    · exact Or.inr (List.mem_map.mpr ⟨k, mem_setDifference.mpr ⟨h1, h2⟩, rfl⟩)

theorem shapeKeys_append (a b : Shape) : shapeKeys (a ++ b) = shapeKeys a ++ shapeKeys b :=
  List.map_append _ a b

theorem shapeKeys_map_missing (l : List String) :
    shapeKeys (l.map (fun k => (k, "missing"))) = l := by
  rw [shapeKeys, List.map_map]
  exact List.map_id l

theorem shapeKeys_completeShape (keys : List String) (s : Shape) :
    shapeKeys (completeShape keys s)
      = shapeKeys s ++ setDifference keys (shapeKeys s) := by
  rw [completeShape_eq, shapeKeys_append, shapeKeys_map_missing]

theorem nodup_shapeKeys_completeShape {keys : List String} {s : Shape}
    (h : (shapeKeys s).Nodup) : (shapeKeys (completeShape keys s)).Nodup := by
  rw [shapeKeys_completeShape, List.nodup_append]
  refine ⟨h, nodup_setDifference _ _, fun k hk hk' => ?_⟩
  exact (mem_setDifference.mp hk').2 hk

theorem mem_shapeKeys_completeShape {keys : List String} {s : Shape} {k : String} :
    k ∈ shapeKeys (completeShape keys s) ↔ k ∈ shapeKeys s ∨ k ∈ keys := by
  rw [shapeKeys_completeShape, List.mem_append, mem_setDifference]
  by_cases h : k ∈ shapeKeys s <;> simp [h]

/-! ### Lemmas about `$arrayToObject` and shape deduplication -/

theorem foldl_a2oStep_eq_append (s : Shape) :
    ∀ acc : Shape, (shapeKeys (acc ++ s)).Nodup → s.foldl a2oStep acc = acc ++ s := by
  induction s with
  | nil => simp
  | cons p rest ih =>
    intro acc h
    have hp : p.1 ∉ shapeKeys acc := by
      rw [shapeKeys_append, List.nodup_append] at h
      intro hmem
      exact h.2.2 hmem (by simp [shapeKeys])
    rw [List.foldl_cons, a2oStep, if_neg hp, ih (acc ++ [p]) (by simpa using h)]
    simp

theorem arrayToObject_eq_self {s : Shape} (h : (shapeKeys s).Nodup) :
    arrayToObject s = s := by
  rw [arrayToObject, foldl_a2oStep_eq_append s [] (by simpa using h)]
  simp

theorem mem_distinctShapes {sample : List BDoc} {s : Shape} :
    s ∈ distinctShapes sample ↔ ∃ d ∈ sample, s = extractShape d := by
  rw [distinctShapes, mem_addToSet, List.mem_map]
  constructor
  · rintro ⟨d, hd, rfl⟩; exact ⟨d, hd, rfl⟩
  · rintro ⟨d, hd, rfl⟩; exact ⟨d, hd, rfl⟩

theorem nodup_shapeKeys_of_mem_distinct {sample : List BDoc} {s : Shape}
    (hwf : wellFormedSample sample) (hs : s ∈ distinctShapes sample) :
    (shapeKeys s).Nodup := by
  obtain ⟨d, hd, rfl⟩ := mem_distinctShapes.mp hs
  rw [shapeKeys_extractShape]
  exact hwf d hd

theorem shapeKeys_sub_globalKeys {sample : List BDoc} {s : Shape}
    (hs : s ∈ distinctShapes sample) {k : String} (hk : k ∈ shapeKeys s) :
    k ∈ globalKeys sample := by
  obtain ⟨d, hd, rfl⟩ := mem_distinctShapes.mp hs
  rw [shapeKeys_extractShape] at hk
  exact mem_globalKeys.mpr ⟨d, hd, hk⟩

theorem dedupShapes_eq {sample : List BDoc} (hwf : wellFormedSample sample) :
    dedupShapes sample = addToSet (completedShapes sample) := by
  rw [dedupShapes]
  congr 1
  rw [List.map_congr_left, List.map_id]
  intro c hc
  rw [completedShapes] at hc
  obtain ⟨s, hs, rfl⟩ := List.mem_map.mp hc
  exact arrayToObject_eq_self
    (nodup_shapeKeys_completeShape (nodup_shapeKeys_of_mem_distinct hwf hs))

theorem mem_dedupShapes {sample : List BDoc} (hwf : wellFormedSample sample) {c : Shape} :
    c ∈ dedupShapes sample
      ↔ ∃ s ∈ distinctShapes sample, c = completeShape (globalKeys sample) s := by
  rw [dedupShapes_eq hwf, mem_addToSet, completedShapes, List.mem_map]
  constructor
  · rintro ⟨s, hs, rfl⟩; exact ⟨s, hs, rfl⟩
  · rintro ⟨s, hs, rfl⟩; exact ⟨s, hs, rfl⟩

theorem nodup_dedupShapes (sample : List BDoc) : (dedupShapes sample).Nodup :=
  nodup_addToSet _

/-! ### Lemmas about the per-field grouping and the Rust merge loop -/

theorem hmGet_map_keyed (g : String → List String) (f : String) :
    ∀ l : List String,
      hmGet (l.map (fun k => (k, g k))) f = if f ∈ l then some (g f) else none := by
  intro l
  induction l with
  | nil => simp [hmGet]
  | cons k rest ih =>
    rw [List.map_cons]
    show (if k = f then some (g k) else hmGet (rest.map fun k => (k, g k)) f) = _
    by_cases h : k = f
    · subst h; simp
    · rw [if_neg h, ih]
      by_cases hf : f ∈ rest
      · simp [hf]
      · have : f ∉ k :: rest := by
          simp only [List.mem_cons]
          rintro (rfl | hc) <;> [exact h rfl; exact hf hc]
        simp [hf, this]

theorem hmGet_groupTypes (pairs : List (String × String)) (f : String) :
    hmGet (groupTypes pairs) f
      = if f ∈ addToSet (pairs.map Prod.fst)
        then some (addToSet ((pairs.filter (fun p => decide (p.1 = f))).map Prod.snd))
        else none := by
  rw [groupTypes, hmGet_map_keyed]

theorem mem_filter_types {pairs : List (String × String)} {f t : String} :
    t ∈ (pairs.filter (fun p => decide (p.1 = f))).map Prod.snd ↔ (f, t) ∈ pairs := by
  rw [List.mem_map]
  constructor
  · rintro ⟨p, hp, rfl⟩
    obtain ⟨hmem, heq⟩ := List.mem_filter.mp hp
    have : p.1 = f := of_decide_eq_true heq
    rw [show (f, p.2) = p from Prod.ext this.symm rfl]
    exact hmem
  · intro h
    exact ⟨(f, t), List.mem_filter.mpr ⟨h, by simp⟩, rfl⟩

theorem groupTypes_keys (pairs : List (String × String)) :
    (groupTypes pairs).map Prod.fst = addToSet (pairs.map Prod.fst) := by
  rw [groupTypes, List.map_map]
  exact List.map_id _

theorem mem_schemaMap_iff {sample : List BDoc} {f t : String} {ts : List String}
    (h : hmGet (schemaMap sample) f = some ts) :
    t ∈ ts ↔ ∃ c ∈ dedupShapes sample, (f, t) ∈ c := by
  rw [schemaMap, hmGet_groupTypes] at h
  by_cases hf : f ∈ addToSet (((dedupShapes sample).flatten).map Prod.fst)
  · rw [if_pos hf] at h
    obtain rfl := Option.some.inj h
    rw [mem_addToSet, mem_filter_types, List.mem_flatten]
  · rw [if_neg hf] at h
    exact absurd h (by simp)

theorem hmGet_schemaMap_domain {sample : List BDoc} {f : String} {ts : List String}
    (h : hmGet (schemaMap sample) f = some ts) :
    ∃ c ∈ dedupShapes sample, f ∈ shapeKeys c := by
  rw [schemaMap, hmGet_groupTypes] at h
  by_cases hf : f ∈ addToSet (((dedupShapes sample).flatten).map Prod.fst)
  · rw [mem_addToSet, List.mem_map] at hf
    obtain ⟨p, hp, rfl⟩ := hf
    obtain ⟨c, hc, hpc⟩ := List.mem_flatten.mp hp
    exact ⟨c, hc, List.mem_map.mpr ⟨p, hpc, rfl⟩⟩
  · rw [if_neg hf] at h
    exact absurd h (by simp)

theorem mapStrs_map_str (ts : List String) : mapStrs (ts.map BVal.str) = .ok ts := by
  induction ts with
  | nil => rfl
  | cons t rest ih =>
    rw [List.map_cons]
    show (do
      let s ← asStr (BVal.str t)
      let ss ← mapStrs (rest.map BVal.str)
      pure (s :: ss)) = Except.ok (t :: rest)
    rw [ih]
    rfl

theorem parseEntry_encEntry (p : String × List String) :
    parseEntry (encEntry p) = .ok p := by
  rw [parseEntry, encEntry]
  show (do
    let e ← asDoc (BVal.obj [("field", .str p.1), ("types", .arr (p.2.map .str))])
    let fv ← getField e "field"
    let f ← asStr fv
    let tv ← getField e "types"
    let tarr ← asArray tv
    let ts ← mapStrs tarr
    pure (f, ts)) = Except.ok p
  show (do
    let f ← asStr (BVal.str p.1)
    let tv ← getField [("field", BVal.str p.1), ("types", .arr (p.2.map .str))] "types"
    let tarr ← asArray tv
    let ts ← mapStrs tarr
    pure (f, ts)) = Except.ok p
  show (do
    let ts ← mapStrs (p.2.map BVal.str)
    pure (p.1, ts)) = Except.ok p
  rw [mapStrs_map_str]
  rfl

theorem processEntries_encEntry (r : List (String × List String)) :
    ∀ m : List (String × List String),
      processEntries m (r.map encEntry)
        = .ok (r.foldl (fun acc p => hmInsert acc p.1 p.2) m) := by
  induction r with
  | nil => intro m; rfl
  | cons p rest ih =>
    intro m
    rw [List.map_cons]
    show (do
      let ft ← parseEntry (encEntry p)
      processEntries (hmInsert m ft.1 ft.2) (rest.map encEntry)) = _
    rw [parseEntry_encEntry]
    show processEntries (hmInsert m p.1 p.2) (rest.map encEntry) = _
    rw [ih]
    rfl

theorem foldl_hmInsert_fresh (r : List (String × List String)) :
    ∀ m : List (String × List String),
      (∀ k ∈ r.map Prod.fst, k ∉ m.map Prod.fst) → (r.map Prod.fst).Nodup →
      r.foldl (fun acc p => hmInsert acc p.1 p.2) m = m ++ r := by
  induction r with
  | nil => simp
  | cons p rest ih =>
    intro m hdisj hnd
    rw [List.map_cons] at hdisj hnd
    have hp : p.1 ∉ m.map Prod.fst := hdisj p.1 (List.mem_cons_self _ _)
    rw [List.foldl_cons]
    show rest.foldl (fun acc p => hmInsert acc p.1 p.2) (hmInsert m p.1 p.2) = _
    rw [hmInsert, if_neg hp]
    have hstep : m ++ [(p.1, p.2)] = m ++ [p] := by simp
    rw [hstep, ih (m ++ [p]) ?_ (List.Nodup.of_cons hnd)]
    · simp
    · intro k hk
      rw [List.map_append, List.mem_append]
      rintro (hkm | hkp)
      · exact hdisj k (List.mem_cons_of_mem _ hk) hkm
      · have : k = p.1 := by simpa using hkp
        subst this
        exact (List.nodup_cons.mp hnd).1 hk

theorem mergeStream_single {r : List (String × List String)}
    (hnd : (r.map Prod.fst).Nodup) : mergeStream [encodeRecord r] = .ok r := by
  rw [mergeStream]
  show (do
    let m ← processRecord [] (encodeRecord r)
    pure m) = Except.ok r
  have hrec : processRecord [] (encodeRecord r) = .ok r := by
    rw [processRecord, encodeRecord]
    show processEntries [] (r.map encEntry) = .ok r
    rw [processEntries_encEntry, foldl_hmInsert_fresh r [] (by simp) hnd]
    rfl
  rw [hrec]
  rfl

theorem schemaMap_nil : schemaMap [] = [] := rfl

theorem finalSchema_eq_ok (sample : List BDoc) :
    finalSchema sample = .ok (schemaMap sample) := by
  rw [finalSchema, aggregationOutput]
  by_cases h0 : sample.isEmpty
  · rw [if_pos h0]
    have : sample = [] := List.isEmpty_iff.mp h0
    subst this
    rfl
  · rw [if_neg h0]
    by_cases h1 : (schemaMap sample).isEmpty
    · rw [if_pos h1, List.isEmpty_iff.mp h1]
      rfl
    · rw [if_neg h1]
      show mergeStream [encodeRecord (schemaMap sample)] = _
      refine mergeStream_single ?_
      rw [schemaMap, groupTypes_keys]
      exact nodup_addToSet _

/-! ### Lemmas about the sample-size computation -/

theorem sqrt_bounds (n : ℕ) :
    (Nat.sqrt (4 * n) : ℝ) ≤ 2 * Real.sqrt n
      ∧ 2 * Real.sqrt n < (Nat.sqrt (4 * n) : ℝ) + 1 := by
  have h4n : ((4 * n : ℕ) : ℝ) = (2 * Real.sqrt n) ^ 2 := by
    push_cast
    rw [mul_pow, Real.sq_sqrt (by positivity)]
    norm_num
  have hs1 : ((Nat.sqrt (4 * n) : ℕ) : ℝ) * (Nat.sqrt (4 * n) : ℝ) ≤ ((4 * n : ℕ) : ℝ) := by
    exact_mod_cast Nat.sqrt_le (4 * n)
  have hs2 : ((4 * n : ℕ) : ℝ) < ((Nat.sqrt (4 * n) : ℝ) + 1) * ((Nat.sqrt (4 * n) : ℝ) + 1) := by
    exact_mod_cast Nat.lt_succ_sqrt (4 * n)
  rw [h4n] at hs1 hs2
  have hsq : (0 : ℝ) ≤ 2 * Real.sqrt n := by positivity
  have hs0 : (0 : ℝ) ≤ (Nat.sqrt (4 * n) : ℝ) := Nat.cast_nonneg _
  constructor
  · nlinarith
  · nlinarith

theorem roundSqrt_eq (n : ℕ) : (roundSqrt n : ℤ) = round (Real.sqrt n) := by
  obtain ⟨h1, h2⟩ := sqrt_bounds n
  rw [round_eq]
  have hr : roundSqrt n = (Nat.sqrt (4 * n) + 1) / 2 := rfl
  rcases Nat.even_or_odd (Nat.sqrt (4 * n)) with ⟨m, hm⟩ | ⟨m, hm⟩
  · have hv : roundSqrt n = m := by rw [hr, hm]; omega
    rw [hv]
    symm
    rw [Int.floor_eq_iff]
    have hc : (Nat.sqrt (4 * n) : ℝ) = 2 * m := by rw [hm]; push_cast; ring
    rw [hc] at h1 h2
    constructor
    · push_cast
      nlinarith
    · push_cast
      nlinarith
  · have hv : roundSqrt n = m + 1 := by rw [hr, hm]; omega
    rw [hv]
    symm
    rw [Int.floor_eq_iff]
    have hc : (Nat.sqrt (4 * n) : ℝ) = 2 * m + 1 := by rw [hm]; push_cast; ring
    rw [hc] at h1 h2
    constructor
    · push_cast
      nlinarith
    · push_cast
      nlinarith

theorem round_ten_thousand : round ((10000 : ℝ)) = 10000 := by
  rw [show (10000 : ℝ) = ((10000 : ℕ) : ℝ) by norm_num, round_natCast]
  norm_num

theorem sample_size_cast (n : ℕ) :
    (sample_size n : ℤ) = max 10000 ((roundSqrt n : ℕ) : ℤ) := by
  rw [sample_size, default_sample_size]
  push_cast [Nat.cast_max]
  rfl

theorem sample_size_eq_round (n : ℕ) :
    (sample_size n : ℤ) = round (max (10000 : ℝ) (Real.sqrt n)) := by
  rw [sample_size_cast, roundSqrt_eq]
  rcases le_total (Real.sqrt n) 10000 with h | h
  · rw [max_eq_left h, round_ten_thousand]
    have hle : round (Real.sqrt n) ≤ 10000 := by
      rw [← round_ten_thousand, round_eq, round_eq]
      exact Int.floor_le_floor (by linarith)
    exact max_eq_left hle
  · rw [max_eq_right h]
    have hge : (10000 : ℤ) ≤ round (Real.sqrt n) := by
      rw [← round_ten_thousand]
      rw [round_eq, round_eq]
      exact Int.floor_le_floor (by linarith)
    exact max_eq_right hge

/-! ### Claim theorems -/

/-- Claim C1 (code bug): the spec requires the result merger to union the
type sets per field across partial-result records, but the merge loop at
lines 183-200 of `main.rs` uses `HashMap::insert`, which overwrites.  On a
stream of two records that both carry field `a` — the first with type set
`int`, the second with type set `string` — the final map binds `a` to only
the last record's list, and the earlier `int` observation is discarded. -/
theorem merge_overwrites_earlier_record :
    mergeStream [splitRec1, splitRec2] = .ok [("a", ["string"])]
      ∧ "int" ∉ (["string"] : List String) :=
  ⟨by decide, by decide⟩

/-- Claim C2 (code bug): the spec requires malformed partial results and
external-call failures to surface typed errors, but the code `.unwrap()`s
everything: a record without a `schema` array, an entry without a `types`
field, a non-string type value, a failed count query, and a failed
aggregation call all abort the process with a panic instead of returning a
typed error value. -/
theorem malformed_input_panics :
    mergeStream [([] : BDoc)] = .error .unwrapFailed
    ∧ mergeStream [[("schema", BVal.arr [BVal.obj [("field", BVal.str "a")]])]]
        = .error .unwrapFailed
    ∧ mergeStream [[("schema",
        BVal.arr [BVal.obj [("field", BVal.str "a"), ("types", BVal.arr [BVal.i32 3])]])]]
        = .error .unwrapFailed
    ∧ mainModel (.error .queryFailed) (.ok []) = .error .unwrapFailed
    ∧ mainModel (.ok 7) (.error .queryFailed) = .error .unwrapFailed :=
  ⟨by decide, by decide, by decide, by decide, by decide⟩

/-- Claim C3 (counterexample): the type extractor is the `$type` operator,
which tags the integer value `1` as `"int"` — a tag outside the spec's
closed canonical set `string, integer, float, boolean, null, date, binary,
object-id, array, object, missing, other`. -/
theorem typeTag_not_canonical :
    typeName (BVal.i32 1) = "int" ∧ "int" ∉ canonicalTypeTags :=
  ⟨rfl, by decide⟩

/-- Claim C3 (amended): the type extractor assigns every top-level value a
tag drawn from the closed set of BSON type names returned by `$type`, via a
total mapping in which every value kind maps to its own BSON type name and
no kind causes a failure; `"missing"` is never assigned as a value's
intrinsic type. -/
theorem typeName_total_bson (v : BVal) :
    typeName v ∈ bsonTypeNames ∧ typeName v ≠ "missing" :=
  ⟨typeName_mem_bsonTypeNames v, typeName_ne_missing v⟩

/-- Claim C4 (counterexample): on the spec's three-document sample the
pipeline tags field `a` with `"int"` (the `$type` name), not `"integer"`:
the computed type set for `a` is `\x7bint, missing\x7d`, which differs from
the claimed `\x7binteger, missing\x7d`. -/
theorem endToEnd_tags_differ_from_spec :
    finalSchema c4sample
      = .ok [("a", ["int", "missing"]), ("b", ["string", "missing"]),
             ("c", ["missing", "bool"])]
    ∧ (["int", "missing"] : List String).toFinset
        ≠ ({"integer", "missing"} : Finset String) :=
  ⟨by decide, by decide⟩

/-- Claim C4 (amended): running the pipeline on the three-document sample
yields the global key set `\x7ba, b, c\x7d`, three distinct completed
shapes, and the final aggregate `a : \x7bint, missing\x7d`,
`b : \x7bstring, missing\x7d`, `c : \x7bmissing, bool\x7d` — the BSON
`$type` names standing in for the spec's canonical tags. -/
theorem endToEnd_sample_aggregate :
    (globalKeys c4sample).toFinset = ({"a", "b", "c"} : Finset String)
    ∧ (dedupShapes c4sample).length = 3
    ∧ (dedupShapes c4sample).Nodup
    ∧ finalSchema c4sample = .ok (schemaMap c4sample)
    ∧ (hmGet (schemaMap c4sample) "a").map List.toFinset
        = some ({"int", "missing"} : Finset String)
    ∧ (hmGet (schemaMap c4sample) "b").map List.toFinset
        = some ({"string", "missing"} : Finset String)
    ∧ (hmGet (schemaMap c4sample) "c").map List.toFinset
        = some ({"missing", "bool"} : Finset String) :=
  ⟨by decide, by decide, by decide, finalSchema_eq_ok _, by decide, by decide, by decide⟩

/-- Claim C10: if the aggregation result stream yields no records, the run
terminates normally (no panic) and produces the empty mapping — the
accumulator starts empty and entries are only added while processing
stream records. -/
theorem empty_stream_yields_empty_schema (n : ℕ) :
    mainModel (.ok n) (.ok []) = .ok [] := rfl

/-- Claim C8: the computed sample size equals
`round (max defaultSampleSize (sqrt N))` with `defaultSampleSize = 10000`
(the `f64` arithmetic of lines 29-30 modelled as exact real arithmetic);
in particular `N = 100` yields `10000` and `N = 10 ^ 10` yields `100000`. -/
theorem sample_size_spec :
    (∀ n : ℕ, (sample_size n : ℤ) = round (max (10000 : ℝ) (Real.sqrt n)))
    ∧ sample_size 100 = 10000 ∧ sample_size (10 ^ 10) = 100000 := by
  refine ⟨sample_size_eq_round, ?_, ?_⟩
  · have h := sample_size_eq_round 100
    have hsq : Real.sqrt ((100 : ℕ) : ℝ) = 10 := by
      rw [show ((100 : ℕ) : ℝ) = (10 : ℝ) ^ 2 by norm_num, Real.sqrt_sq (by norm_num)]
    rw [hsq, max_eq_left (by norm_num), round_ten_thousand] at h
    exact_mod_cast h
  · have h := sample_size_eq_round (10 ^ 10)
    have hsq : Real.sqrt (((10 ^ 10 : ℕ)) : ℝ) = 100000 := by
      rw [show (((10 ^ 10 : ℕ)) : ℝ) = (100000 : ℝ) ^ 2 by norm_num,
        Real.sqrt_sq (by norm_num)]
    rw [hsq, max_eq_right (by norm_num)] at h
    have hr : round ((100000 : ℝ)) = 100000 := by
      rw [show (100000 : ℝ) = ((100000 : ℕ) : ℝ) by norm_num, round_natCast]
      norm_num
    rw [hr] at h
    exact_mod_cast h

/-- Claim C6: the global key set computed by the `$reduce`/`$setUnion` fold
equals the union of the field-name sets of all shapes extracted from the
sample, and the resulting set is the same for every arrival order of the
sample. -/
theorem globalKeys_union_order_invariant (sample sample' : List BDoc)
    (hperm : sample.Perm sample') :
    (∀ k, k ∈ globalKeys sample ↔ ∃ d ∈ sample, k ∈ d.map Prod.fst)
    ∧ ∀ k, (k ∈ globalKeys sample ↔ k ∈ globalKeys sample') := by
  refine ⟨fun k => mem_globalKeys, fun k => ?_⟩
  rw [mem_globalKeys, mem_globalKeys]
  constructor
  · rintro ⟨d, hd, hk⟩; exact ⟨d, hperm.mem_iff.mp hd, hk⟩
  · rintro ⟨d, hd, hk⟩; exact ⟨d, hperm.mem_iff.mpr hd, hk⟩

/-- Witness for C6, at the concrete three-document sample and its reverse. -/
theorem globalKeys_union_order_invariant_witness :
    ("a" ∈ globalKeys c4sample ↔ ∃ d ∈ c4sample, "a" ∈ d.map Prod.fst)
    ∧ ("a" ∈ globalKeys c4sample ↔ "a" ∈ globalKeys c4sample.reverse) := by
  obtain ⟨h1, h2⟩ :=
    globalKeys_union_order_invariant c4sample c4sample.reverse
      (List.reverse_perm c4sample).symm
  exact ⟨h1 "a", h2 "a"⟩

theorem filter_key_length_one :
    ∀ {c : Shape}, (shapeKeys c).Nodup → ∀ {k : String}, k ∈ shapeKeys c →
      (c.filter (fun p => decide (p.1 = k))).length = 1 := by
  intro c
  induction c with
  | nil => intro _ k hk; exact absurd hk (by simp [shapeKeys])
  | cons q rest ih =>
    intro hnd k hk
    have hq : shapeKeys (q :: rest) = q.1 :: shapeKeys rest := rfl
    rw [hq, List.nodup_cons] at hnd
    rw [hq, List.mem_cons] at hk
    rw [List.filter_cons]
    rcases hk with rfl | hk
    · rw [if_pos (by simp)]
      have hnil : rest.filter (fun p => decide (p.1 = q.1)) = [] := by
        rw [List.filter_eq_nil_iff]
        intro p hp hdec
        exact hnd.1 (List.mem_map.mpr ⟨p, hp, of_decide_eq_true hdec⟩)
      rw [hnil]
      rfl
    · have hne : q.1 ≠ k := fun he => hnd.1 (he ▸ hk)
      rw [if_neg (by simpa using hne)]
      exact ih hnd.2 hk

theorem length_filter_mem_eq {keys A : List String} (hk : keys.Nodup) (hA : A.Nodup)
    (hsub : ∀ a ∈ A, a ∈ keys) :
    (keys.filter (fun k => decide (k ∈ A))).length = A.length := by
  have hnf : (keys.filter (fun k => decide (k ∈ A))).Nodup := hk.filter _
  have hfin : (keys.filter (fun k => decide (k ∈ A))).toFinset = A.toFinset := by
    ext x
    simp only [List.mem_toFinset, List.mem_filter, decide_eq_true_eq]
    exact ⟨fun h => h.2, fun h => ⟨hsub x h, h⟩⟩
  calc (keys.filter (fun k => decide (k ∈ A))).length
      = (keys.filter (fun k => decide (k ∈ A))).toFinset.card :=
        (List.toFinset_card_of_nodup hnf).symm
    _ = A.toFinset.card := by rw [hfin]
    _ = A.length := List.toFinset_card_of_nodup hA

theorem setDifference_length {keys A : List String} (hk : keys.Nodup) (hA : A.Nodup)
    (hsub : ∀ a ∈ A, a ∈ keys) :
    (setDifference keys A).length = keys.length - A.length := by
  rw [setDifference, addToSet_eq_self hk]
  have hsplit := List.length_eq_length_filter_add (l := keys) (fun k => decide (k ∈ A))
  have hmem := length_filter_mem_eq hk hA hsub
  have hnot : (keys.filter (fun k => !decide (k ∈ A))).length
      = (keys.filter (fun k => decide (k ∉ A))).length := by
    congr 1
    apply List.filter_congr
    intro x _
    by_cases h : x ∈ A <;> simp [h]
  omega

/-- Claim C5: for every document shape produced from the sample, the
completion stage returns a completed shape of size `|GlobalKeySet|`,
containing exactly one (field, type) pair per global key, with type
`"missing"` exactly for the keys absent from the original shape, and the
original pairs kept unchanged. -/
theorem completeShape_spec (sample : List BDoc) (d : BDoc)
    (hwf : wellFormedSample sample) (hd : d ∈ sample) :
    (completeShape (globalKeys sample) (extractShape d)).length
        = (globalKeys sample).length
    ∧ (∀ k ∈ globalKeys sample,
        ((completeShape (globalKeys sample) (extractShape d)).filter
          (fun p => decide (p.1 = k))).length = 1)
    ∧ (∀ p ∈ completeShape (globalKeys sample) (extractShape d),
        (p.2 = "missing" ↔ p.1 ∉ shapeKeys (extractShape d)))
    ∧ (∀ p ∈ extractShape d, p ∈ completeShape (globalKeys sample) (extractShape d)) := by
  have hsdist : extractShape d ∈ distinctShapes sample :=
    mem_distinctShapes.mpr ⟨d, hd, rfl⟩
  have hks : (shapeKeys (extractShape d)).Nodup := by
    rw [shapeKeys_extractShape]; exact hwf d hd
  have hkg : (globalKeys sample).Nodup := nodup_globalKeys sample
  have hsub : ∀ a ∈ shapeKeys (extractShape d), a ∈ globalKeys sample :=
    fun a ha => shapeKeys_sub_globalKeys hsdist ha
  refine ⟨?_, ?_, ?_, ?_⟩
  · rw [completeShape_eq, List.length_append, List.length_map,
      setDifference_length hkg hks hsub]
    have hlen : (extractShape d).length = (shapeKeys (extractShape d)).length :=
      (List.length_map _ _).symm
    have hle : (shapeKeys (extractShape d)).length ≤ (globalKeys sample).length := by
      have := length_filter_mem_eq hkg hks hsub
      calc (shapeKeys (extractShape d)).length
          = (List.filter (fun k => decide (k ∈ shapeKeys (extractShape d)))
              (globalKeys sample)).length := this.symm
        _ ≤ (globalKeys sample).length := List.length_filter_le _ _
    omega
  · intro k hk
    refine filter_key_length_one (nodup_shapeKeys_completeShape hks) ?_
    exact mem_shapeKeys_completeShape.mpr (Or.inr hk)
  · rintro ⟨k, t⟩ hp
    rcases mem_completeShape.mp hp with hin | ⟨rfl, _, hnot⟩
    · have ht : t ≠ "missing" := by
        rintro rfl
        exact missing_not_mem_extractShape d k hin
      have hkin : k ∈ shapeKeys (extractShape d) :=
        List.mem_map.mpr ⟨(k, t), hin, rfl⟩
      simp [ht, hkin]
    · simp [hnot]
  · intro p hp
    rw [completeShape_eq]
    exact List.mem_append.mpr (Or.inl hp)

/-- Witness for C5, at the spec's three-document sample and its first
document. -/
theorem completeShape_spec_witness :
    (completeShape (globalKeys c4sample)
        (extractShape [("a", BVal.i32 1), ("b", BVal.str "x")])).length
      = (globalKeys c4sample).length
    ∧ ((completeShape (globalKeys c4sample)
        (extractShape [("a", BVal.i32 1), ("b", BVal.str "x")])).filter
          (fun p => decide (p.1 = "c"))).length = 1 := by
  obtain ⟨h1, h2, _, _⟩ :=
    completeShape_spec c4sample [("a", BVal.i32 1), ("b", BVal.str "x")]
      (by decide) (List.Mem.head _)
  exact ⟨h1, h2 "c" (by decide)⟩

/-- Claim C7: for every field in the final aggregate, its type set contains
`"missing"` if and only if at least one shape in the deduplicated set of
completed shapes lacks that field in its original (pre-completion) form. -/
theorem aggregate_missing_iff (sample : List BDoc) (f : String) (ts : List String)
    (hwf : wellFormedSample sample)
    (h : hmGet (schemaMap sample) f = some ts) :
    "missing" ∈ ts ↔ ∃ s ∈ distinctShapes sample, f ∉ shapeKeys s := by
  rw [mem_schemaMap_iff h]
  constructor
  · rintro ⟨c, hc, hm⟩
    obtain ⟨s, hs, rfl⟩ := (mem_dedupShapes hwf).mp hc
    rcases mem_completeShape.mp hm with hin | ⟨_, _, hnot⟩
    · obtain ⟨d, hd, rfl⟩ := mem_distinctShapes.mp hs
      exact absurd hin (missing_not_mem_extractShape d f)
    · exact ⟨s, hs, hnot⟩
  · rintro ⟨s, hs, hnot⟩
    obtain ⟨c0, hc0, hf0⟩ := hmGet_schemaMap_domain h
    obtain ⟨s0, hs0, rfl⟩ := (mem_dedupShapes hwf).mp hc0
    have hfk : f ∈ globalKeys sample := by
      rcases mem_shapeKeys_completeShape.mp hf0 with h1 | h1
      · exact shapeKeys_sub_globalKeys hs0 h1
      · exact h1
    refine ⟨completeShape (globalKeys sample) s,
      (mem_dedupShapes hwf).mpr ⟨s, hs, rfl⟩, ?_⟩
    exact mem_completeShape.mpr (Or.inr ⟨rfl, hfk, hnot⟩)

/-- Witness for C7, at the spec's three-document sample and field `a`. -/
theorem aggregate_missing_iff_witness :
    hmGet (schemaMap c4sample) "a" = some ["int", "missing"]
    ∧ ("missing" ∈ (["int", "missing"] : List String)
        ↔ ∃ s ∈ distinctShapes c4sample, "a" ∉ shapeKeys s) :=
  ⟨by decide,
    aggregate_missing_iff c4sample "a" ["int", "missing"] (by decide) (by decide)⟩

/-- Claim C9 (counterexample): dedup equality in the code is BSON document
equality, which is sensitive to pair order: on a sample of two documents
carrying the same (field, type) pairs in different field order, the
deduplicator keeps two representatives whose pair sets are equal, so it
does not keep exactly one representative per set of pairs. -/
theorem dedup_keeps_order_variant_shapes :
    dedupShapes c9sample
      = [[("a", "int"), ("b", "string")], [("b", "string"), ("a", "int")]]
    ∧ ([("a", "int"), ("b", "string")] : Shape).toFinset
        = ([("b", "string"), ("a", "int")] : Shape).toFinset
    ∧ ([("a", "int"), ("b", "string")] : Shape) ≠ [("b", "string"), ("a", "int")] :=
  ⟨by decide, by decide, by decide⟩

/-- Claim C9 (amended): the shape deduplicator keeps exactly one
representative of each structurally distinct completed shape, where
equality is equality of the (field, type) pair sequences (pair order
included); consequently, appending to the sample a document identical to
one already sampled leaves the final aggregate unchanged. -/
theorem dedup_distinct_and_duplicate_invariant (sample : List BDoc) (d : BDoc)
    (hwf : wellFormedSample sample) (hd : d ∈ sample) :
    (dedupShapes sample).Nodup
    ∧ (∀ c, c ∈ dedupShapes sample
        ↔ ∃ s ∈ distinctShapes sample, c = completeShape (globalKeys sample) s)
    ∧ finalSchema (sample ++ [d]) = finalSchema sample := by
  refine ⟨nodup_dedupShapes sample, fun c => mem_dedupShapes hwf, ?_⟩
  have hds : distinctShapes (sample ++ [d]) = distinctShapes sample := by
    rw [distinctShapes, distinctShapes, List.map_append, List.map_singleton]
    exact addToSet_append_of_mem (List.mem_map.mpr ⟨d, hd, rfl⟩)
  have hkl : keyLists (sample ++ [d]) = keyLists sample := by
    rw [keyLists, keyLists, List.map_append, List.map_singleton]
    exact addToSet_append_of_mem
      (List.mem_map.mpr ⟨d, hd, rfl⟩)
  have hgk : globalKeys (sample ++ [d]) = globalKeys sample := by
    rw [globalKeys, globalKeys, hkl]
  have hsm : schemaMap (sample ++ [d]) = schemaMap sample := by
    rw [schemaMap, schemaMap, dedupShapes, dedupShapes, completedShapes,
      completedShapes, hds, hgk]
  rw [finalSchema_eq_ok, finalSchema_eq_ok, hsm]

/-- Witness for C9, at the spec's three-document sample with its first
document appended again. -/
theorem dedup_distinct_and_duplicate_invariant_witness :
    (dedupShapes c4sample).Nodup
    ∧ ([("a", "int"), ("b", "string"), ("c", "missing")] ∈ dedupShapes c4sample
        ↔ ∃ s ∈ distinctShapes c4sample,
            [("a", "int"), ("b", "string"), ("c", "missing")]
              = completeShape (globalKeys c4sample) s)
    ∧ finalSchema (c4sample ++ [[("a", BVal.i32 1), ("b", BVal.str "x")]])
        = finalSchema c4sample := by
  obtain ⟨h1, h2, h3⟩ :=
    dedup_distinct_and_duplicate_invariant c4sample
      [("a", BVal.i32 1), ("b", BVal.str "x")] (by decide) (List.Mem.head _)
  exact ⟨h1, h2 _, h3⟩

end SchemaAnalyzer
